import Mathlib

/-!
Shallow embedding of the question parser, grading engine, shuffle utility and
wrong-answer report of `src/main.ts` (obsidian-exam-creator), together with
proofs settling the frozen claims about them.

Strings are modelled as `List Char` (`Str`).  JavaScript semantics that the
source relies on are reproduced explicitly:

* `String.prototype.split` with the zero-width lookahead `(?=Q\d+\.)` splits
  before every position (other than the start of the current segment) at which
  the marker pattern matches; a match at index 0 produces no empty leading
  piece (ES spec: a zero-width match at the current segment start is skipped).
* regex matching is transcribed pattern by pattern; each pattern used by the
  source (`^Q(\d+)\.\s*(.*)`, `^([A-Z])\.\s+(.*)`, `^Answer:\s*(.*)/i`,
  `^[A-Z](\s*,\s*[A-Z])*$`, the image pattern
  `!\[\[([^\]]+)\]\]|!\[([^\]]*)\]\(([^)]+)\)`) is deterministic: every
  bounded repetition (`\d+`, `[^\]]+`, `\s+`, ...) is followed by a character
  it can never match, so greedy matching without backtracking
  (`takeWhile`/`dropWhile`) is the exact semantics.
* `\s` / `trim` whitespace is modelled by the ASCII whitespace characters
  (space, `\t`, `\n`, `\r`, `\x0b`, `\x0c`); the Unicode space classes JS also
  accepts do not occur in the inputs modelled here.
* `toLowerCase`/`toUpperCase` are modelled by `Char.toLower`/`Char.toUpper`
  (ASCII case mapping, which is what the letter/answer data uses).
* `Array.prototype.sort()` (no comparator) sorts by UTF-16 code-unit
  lexicographic comparison on the elements-as-strings; since the relation is a
  total order (ties only between identical strings) the sorted list is unique,
  so any correct sort — modelled by `List.insertionSort` — computes it.
* a JS runtime `TypeError` (calling `.toLowerCase()` on `undefined` or on an
  array) is modelled by `Except.error ()`.
-/

namespace ExamCreator

abbrev Str := List Char

/-- ASCII whitespace as recognised by JS `\s` and `String.prototype.trim`. -/
def isWs (c : Char) : Bool :=
  c = ' ' || c = '\t' || c = '\n' || c = '\r' || c = '\x0b' || c = '\x0c'

/-- `String.prototype.trim`: drop whitespace from both ends. -/
def trim (s : Str) : Str :=
  ((s.dropWhile isWs).reverse.dropWhile isWs).reverse

/-- Does the marker pattern `Q\d+\.` match at the start of `s`?
Transcribes the test `trimmed.match(/^Q\d+\./)` (src/main.ts:98). -/
def markerP (s : Str) : Bool :=
  match s with
  | 'Q' :: rest =>
    (match rest with
     | c :: _ => c.isDigit
     | [] => false) &&
    (match rest.dropWhile Char.isDigit with
     | '.' :: _ => true
     | _ => false)
  | _ => false

/-- `firstLine.match(/^Q(\d+)\.\s*(.*)/)` (src/main.ts:116): returns the
captured id digits and the rest of the line after skipping whitespace. -/
def parseQLine (s : Str) : Option (Str × Str) :=
  match s with
  | 'Q' :: rest =>
    let ds := rest.takeWhile Char.isDigit
    if ds.isEmpty then none
    else
      match rest.dropWhile Char.isDigit with
      | '.' :: tail => some (ds, tail.dropWhile isWs)
      | _ => none
  | _ => none

/-- `line.match(/^([A-Z])\.\s+(.*)/)` (src/main.ts:189): an option line is a
single uppercase letter, a dot, at least one whitespace, then the text. -/
def optionLineParse (s : Str) : Option (Char × Str) :=
  match s with
  | c :: '.' :: rest =>
    if c.isUpper &&
       (match rest with
        | w :: _ => isWs w
        | [] => false)
    then some (c, rest.dropWhile isWs)
    else none
  | _ => none

/-- `line.match(/^[A-Z]\.\s+/)` (src/main.ts:148). -/
def isOptB (s : Str) : Bool := (optionLineParse s).isSome

/-- `line.match(/^Answer:/i)` (src/main.ts:153, 183): case-insensitive
prefix test. -/
def isAnsB (s : Str) : Bool :=
  (s.take 7).map Char.toLower = ("answer:").data

/-- First alternative of the image pattern, `!\[\[([^\]]+)\]\]`, matched at
the head of `s`: returns (captured target, remainder after the match). -/
def img1At (s : Str) : Option (Str × Str) :=
  match s with
  | '!' :: '[' :: '[' :: rest =>
    let inner := rest.takeWhile (fun c => !(c = ']'))
    if inner.isEmpty then none
    else
      match rest.dropWhile (fun c => !(c = ']')) with
      | ']' :: ']' :: tail => some (inner, tail)
      | _ => none
  | _ => none

/-- Second alternative, `!\[([^\]]*)\]\(([^)]+)\)`, matched at the head of
`s`: returns (alt text, captured target, remainder after the match). -/
def img2At (s : Str) : Option (Str × Str × Str) :=
  match s with
  | '!' :: '[' :: rest =>
    let alt := rest.takeWhile (fun c => !(c = ']'))
    match rest.dropWhile (fun c => !(c = ']')) with
    | ']' :: '(' :: rest2 =>
      let tgt := rest2.takeWhile (fun c => !(c = ')'))
      if tgt.isEmpty then none
      else
        match rest2.dropWhile (fun c => !(c = ')')) with
        | ')' :: tail => some (alt, tgt, tail)
        | _ => none
    | _ => none
  | _ => none

/-- `s.match(imagePattern)` (src/main.ts:129): find the leftmost match of
either alternative (alternative 1 tried first at each position, as in JS).
Returns (text before the match, image target — `imgMatch[1] || imgMatch[3]`,
text after the match).  The target capture of either alternative is
non-empty, so `imgMatch[1] || imgMatch[3]` is exactly the matched target. -/
def findImg : Str → Option (Str × Str × Str)
  | [] => none
  | c :: rest =>
    match img1At (c :: rest) with
    | some (tgt, tail) => some ([], tgt, tail)
    | none =>
      match img2At (c :: rest) with
      | some (_, tgt, tail) => some ([], tgt, tail)
      | none =>
        match findImg rest with
        | some (pre, u, post) => some (c :: pre, u, post)
        | none => none

/-- `line.match(imagePattern)` used as a Boolean test (src/main.ts:140). -/
def isImgLine (s : Str) : Bool := (findImg s).isSome

/-- `line.toLowerCase().includes('with image support')` (src/main.ts:161). -/
def isMetaLine (s : Str) : Bool :=
  decide (("with image support").data <:+: s.map Char.toLower)

/-- `'single' | 'multiple' | 'freetext'` (src/main.ts:34). -/
inductive QType
  | single
  | multiple
  | freetext
deriving DecidableEq, Repr

/-- `userAnswer?: string[] | string` (src/main.ts:35). -/
inductive Response
  | letters : List Str → Response
  | text : Str → Response
deriving DecidableEq, Repr

/-- `QuestionOption` (src/main.ts:23-26); the letter capture of
`^([A-Z])\.\s+(.*)` is a single character. -/
structure QuestionOption where
  letter : Char
  text : Str
deriving DecidableEq, Repr

/-- `Question` (src/main.ts:28-36).  The parser never sets `userAnswer`
(JS `undefined`, here `none`); the session UI fills it in later. -/
structure Question where
  id : Str
  text : Str
  imageUrl : Option Str
  options : List QuestionOption
  correctAnswers : List Str
  type : QType
  userAnswer : Option Response
deriving DecidableEq, Repr

/-- Tail of the comma-separated-letters pattern `(\s*,\s*[A-Z])*$`, as a
character-by-character state machine.  `afterComma = false`: a letter was
just consumed, so only `\s*` then `,` (or the end of the string) may follow;
`afterComma = true`: a comma was consumed, so only `\s*` then an uppercase
letter may follow.  Returns the remaining matched letters, or `none` when
the rest of the string does not match the pattern. -/
def lettersCsvGo : Str → Bool → Option (List Char)
  | [], false => some []
  | [], true => none
  | c :: rest, false =>
    if isWs c then lettersCsvGo rest false
    else if c = ',' then lettersCsvGo rest true
    else none
  | c :: rest, true =>
    if isWs c then lettersCsvGo rest true
    else if c.isUpper then (lettersCsvGo rest false).map (fun ls => c :: ls)
    else none

/-- `answerText.match(/^[A-Z](\s*,\s*[A-Z])*$/)` (src/main.ts:208) combined
with the subsequent `answerText.split(/\s*,\s*/)`: on a string matching the
anchored pattern, splitting on `\s*,\s*` yields exactly the single letters
(every whitespace run is adjacent to a comma and is consumed by the
separator), so the combined test-and-split is realised by returning the
matched letters. -/
def parseLettersCsv (s : Str) : Option (List Char) :=
  match s with
  | c :: rest => if c.isUpper then (lettersCsvGo rest false).map (fun ls => c :: ls) else none
  | [] => none

/-- `answerText.match(/^[A-Z]$/)` (src/main.ts:210). -/
def isSingleLetter (s : Str) : Bool :=
  match s with
  | [c] => c.isUpper
  | _ => false

/-- Answer classification (src/main.ts:207-215): comma-separated letters
(each `.trim().toUpperCase()`), a single letter (`.toUpperCase()`), or the
raw trimmed text as one free-text element. -/
def classifyAnswer (answerText : Str) : List Str :=
  match parseLettersCsv answerText with
  | some ls => ls.map (fun c => [c.toUpper])
  | none =>
    if isSingleLetter answerText then
      [answerText.map Char.toUpper]
    else
      [answerText]

/-- Text-accumulation phase (src/main.ts:136-167).  Scans lines until one
matches the option-line or answer-line pattern; a line containing an image
reference is consumed and its target assigned to `imageUrl` (each new image
line overwrites the previous assignment, so the last one wins); a meta line
is dropped; any other line is accumulated as question text.  Returns
(accumulated text lines, final `imageUrl`, unconsumed lines starting with
the breaking line). -/
def textPhase : List Str → List Str × Option Str × List Str
  | [] => ([], none, [])
  | l :: ls =>
    match findImg l with
    | some (_, u, _) =>
      let r := textPhase ls
      (r.1, (match r.2.1 with
             | some u' => some u'
             | none => some u), r.2.2)
    | none =>
      if isOptB l then ([], none, l :: ls)
      else if isAnsB l then ([], none, l :: ls)
      else if isMetaLine l then textPhase ls
      else
        let r := textPhase ls
        (l :: r.1, r.2.1, r.2.2)

/-- Option phase (src/main.ts:179-198): scan the remaining lines, collecting
option lines in encounter order, stopping at the first answer line (which is
returned as well); other lines are skipped. -/
def optionPhase : List Str → List (Char × Str) × Option Str
  | [] => ([], none)
  | l :: ls =>
    if isAnsB l then ([], some l)
    else
      match optionLineParse l with
      | some o =>
        let r := optionPhase ls
        (o :: r.1, r.2)
      | none => optionPhase ls

/-- Answer phase (src/main.ts:201-217): strip the case-insensitive
`Answer:` prefix (`answerMatch[1]` is the line after the 7 prefix
characters with leading whitespace removed by `\s*`), trim, classify. -/
def answerPhase (ansLine : Option Str) : List Str :=
  match ansLine with
  | none => []
  | some l => classifyAnswer (trim (l.drop 7))

/-- Type determination (src/main.ts:219-227). -/
def determineType (options : List QuestionOption) (correctAnswers : List Str) : QType :=
  if options.isEmpty then .freetext
  else if correctAnswers.length > 1 && correctAnswers.all isSingleLetter then .multiple
  else .single

/-- `block.split('\n').map(l => l.trim()).filter(l => l)` (src/main.ts:110). -/
def linesOf (block : Str) : List Str :=
  ((block.splitOn '\n').map trim).filter (fun l => !l.isEmpty)

/-- The embedded-image check on the joined question text
(src/main.ts:172-176): when the text contains an image reference and no
image was captured from a whole line, extract the target and remove the
matched substring (`questionText.replace(imagePattern, '').trim()`).
Returns the final (imageUrl, text). -/
def embeddedImg (questionText : Str) (img : Option Str) : Option Str × Str :=
  match findImg questionText, img with
  | some (pre, u, post), none => (some u, trim (pre ++ post))
  | _, i => (i, questionText)

/-- `parseQuestionBlock` (src/main.ts:109-237). -/
def parseQuestionBlock (block : Str) : Option Question :=
  match linesOf block with
  | [] => none
  | firstLine :: restLines =>
    match parseQLine firstLine with
    | none => none
    | some (id, rest0) =>
      let tp := textPhase restLines
      let op := optionPhase tp.2.2
      let options := op.1.map (fun o => QuestionOption.mk o.1 o.2)
      let correctAnswers := answerPhase op.2
      let questionText := trim (List.intercalate [' '] (rest0 :: tp.1))
      let ei := embeddedImg questionText tp.2.1
      some { id := id
             text := ei.2
             imageUrl := ei.1
             options := options
             correctAnswers := correctAnswers
             type := determineType options correctAnswers
             userAnswer := none }

/-- `content.split(/(?=Q\d+\.)/)` (src/main.ts:94): split before every
position at which the marker matches, except the start of the current
segment (`cur = []`), which is how the ES spec treats a zero-width match at
the segment start. -/
def splitGo : Str → Str → List Str
  | [], cur => [cur.reverse]
  | c :: rest, cur =>
    if !cur.isEmpty && markerP (c :: rest) then
      cur.reverse :: splitGo rest [c]
    else
      splitGo rest (c :: cur)

def splitBlocks (content : Str) : List Str := splitGo content []

/-- `parseQuestions` (src/main.ts:90-107): `const trimmed = block.trim()` is
inlined as `trim block`; the `continue` for an empty or marker-less trimmed
block and the `if (question)` push are the two `none` cases of the
`filterMap`. -/
def parseQuestions (content : Str) : List Question :=
  (splitBlocks content).filterMap (fun block =>
    if (trim block).isEmpty then none
    else if !markerP (trim block) then none
    else parseQuestionBlock (trim block))

/-! ## Grading engine -/

/-- Per-question outcome of grading. -/
inductive GStatus
  | correct
  | wrong
  | skipped
deriving DecidableEq, Repr

/-- The skip test used identically at src/main.ts:626-628, 965-967 and
775-777: `!q.userAnswer || (Array.isArray(q.userAnswer) &&
q.userAnswer.length === 0) || q.userAnswer === ''`.  An absent answer and
the empty string are falsy; an empty array is caught by the length check. -/
def respEmpty : Option Response → Bool
  | none => true
  | some (.letters l) => l.isEmpty
  | some (.text s) => s.isEmpty

/-- `s.toLowerCase().trim()`. -/
def lowerTrim (s : Str) : Str := trim (s.map Char.toLower)

/-- `Array.isArray(q.userAnswer) ? q.userAnswer : [q.userAnswer]`
(src/main.ts:642, 786, 976): a bare string is wrapped into a one-element
array. -/
def respAsList : Response → List Str
  | .letters l => l
  | .text s => [s]

/-- UTF-16 code-unit lexicographic comparison of strings, the default
`Array.prototype.sort()` comparator (elements are strings here). -/
def strLe : Str → Str → Bool
  | [], _ => true
  | _ :: _, [] => false
  | a :: as, b :: bs =>
    if a.toNat < b.toNat then true
    else if b.toNat < a.toNat then false
    else strLe as bs

/-- The proposition form of `strLe`, used as the sort relation. -/
def StrLeR (a b : Str) : Prop := strLe a b = true

instance : DecidableRel StrLeR := fun a b => inferInstanceAs (Decidable (strLe a b = true))

/-- `[...arr].sort()`: the sorted rearrangement of `arr` under the default
string comparator (unique because ties hold only between equal elements). -/
def jsSort (l : List Str) : List Str := List.insertionSort StrLeR l

/-- `[...arr].sort().join(',')` (src/main.ts:643-644, 786-788, 977-978). -/
def sortJoin (l : List Str) : Str := List.intercalate [','] (jsSort l)

/-- The per-question branch of `finalizeSubmission` (src/main.ts:625-651).
`Except.error ()` models a JS `TypeError`:
* in the freetext branch, `(q.userAnswer as string).toLowerCase()` throws
  when the answer is actually an array (src/main.ts:634);
* `q.correctAnswers[0].toLowerCase()` throws when `correctAnswers` is empty
  (src/main.ts:635). -/
def finalizeStatus (q : Question) : Except Unit GStatus :=
  if respEmpty q.userAnswer then .ok .skipped
  else
    match q.type with
    | .freetext =>
      match q.userAnswer with
      | some (.text s) =>
        match q.correctAnswers with
        | c :: _ => .ok (if lowerTrim s = lowerTrim c then .correct else .wrong)
        | [] => .error ()
      | _ => .error ()
    | _ =>
      let userAnswers :=
        match q.userAnswer with
        | some r => respAsList r
        | none => []
      .ok (if sortJoin userAnswers = sortJoin q.correctAnswers then .correct else .wrong)

/-- `getQuestionStatus` of the review modal (src/main.ts:964-981); the same
branch structure and the same two `TypeError` possibilities as
`finalizeStatus`. -/
def getQuestionStatus (q : Question) : Except Unit GStatus :=
  if respEmpty q.userAnswer then .ok .skipped
  else
    match q.type with
    | .freetext =>
      match q.userAnswer with
      | some (.text s) =>
        match q.correctAnswers with
        | c :: _ => .ok (if lowerTrim s = lowerTrim c then .correct else .wrong)
        | [] => .error ()
      | _ => .error ()
    | _ =>
      let userAnswers :=
        match q.userAnswer with
        | some r => respAsList r
        | none => []
      .ok (if sortJoin userAnswers = sortJoin q.correctAnswers then .correct else .wrong)

/-- The filter predicate of `saveWrongAnswersToFile` (src/main.ts:774-791):
`true` for skipped questions, otherwise `true` exactly when the
sorted/lower-cased comparison fails; same `TypeError` possibilities. -/
def saveFilter (q : Question) : Except Unit Bool :=
  if respEmpty q.userAnswer then .ok true
  else
    match q.type with
    | .freetext =>
      match q.userAnswer with
      | some (.text s) =>
        match q.correctAnswers with
        | c :: _ => .ok (decide (lowerTrim s ≠ lowerTrim c))
        | [] => .error ()
      | _ => .error ()
    | _ =>
      let userAnswers :=
        match q.userAnswer with
        | some r => respAsList r
        | none => []
      .ok (decide (sortJoin userAnswers ≠ sortJoin q.correctAnswers))

/-- The counting loop of `finalizeSubmission` (src/main.ts:621-652):
`forEach` over the questions bumping (correct, wrong, skipped); an exception
thrown for one question aborts the whole loop. -/
def finalizeCountsGo : List Question → Nat × Nat × Nat → Except Unit (Nat × Nat × Nat)
  | [], acc => .ok acc
  | q :: rest, (c, w, s) =>
    match finalizeStatus q with
    | .error e => .error e
    | .ok .skipped => finalizeCountsGo rest (c, w, s + 1)
    | .ok .correct => finalizeCountsGo rest (c + 1, w, s)
    | .ok .wrong => finalizeCountsGo rest (c, w + 1, s)

def finalizeCounts (qs : List Question) : Except Unit (Nat × Nat × Nat) :=
  finalizeCountsGo qs (0, 0, 0)

/-- The review modal's statuses of all questions in order
(src/main.ts:954-959, 986-991), with an exception aborting the traversal. -/
def gradeAll : List Question → Except Unit (List GStatus)
  | [] => .ok []
  | q :: qs =>
    match getQuestionStatus q with
    | .error e => .error e
    | .ok st => (gradeAll qs).map (fun sts => st :: sts)

/-! ## Shuffle -/

/-- The JS swap `[a[i], a[j]] = [a[j], a[i]]` (src/main.ts:243): both reads
happen before both writes.  Out-of-range indices never occur in the
Fisher–Yates loop; the fallback keeps the function total. -/
def listSwap {α : Type} (l : List α) (i j : Nat) : List α :=
  match l[i]?, l[j]? with
  | some a, some b => (l.set i b).set j a
  | _, _ => l

/-- The Fisher–Yates loop of `shuffleArray` (src/main.ts:241-244): for `i`
from `length - 1` down to `1`, swap index `i` with index
`j = Math.floor(Math.random() * (i + 1))`.  The random draws are supplied by
the oracle `rand`; `rand i % (i + 1)` models the uniformly drawn `j ≤ i`. -/
def shuffleGo {α : Type} (rand : Nat → Nat) : Nat → List α → List α
  | 0, l => l
  | i + 1, l => shuffleGo rand i (listSwap l (i + 1) (rand (i + 1) % (i + 2)))

/-- `shuffleArray` (src/main.ts:239-246): copies the input
(`[...array]` — the original array is never written to) and runs the loop. -/
def shuffleArray {α : Type} (rand : Nat → Nat) (l : List α) : List α :=
  shuffleGo rand (l.length - 1) l

/-! ## Wrong-answer report -/

/-- The `Your answer:` part of one report entry (src/main.ts:816-823).
JS truthiness: `if (q.userAnswer)` is false for `undefined` and for the
empty string (both yield the `(skipped)` line); an array is always truthy,
but when it joins to the empty string the inner `if (userAns)` fails and no
line is emitted at all. -/
def yourAnswerLine (q : Question) : Str :=
  match q.userAnswer with
  | some (.letters l) =>
    let userAns := List.intercalate (", ").data l
    if userAns.isEmpty then [] else ("Your answer: ").data ++ userAns ++ ('\n' :: [])
  | some (.text s) =>
    if s.isEmpty then ("Your answer: (skipped)\n").data
    else ("Your answer: ").data ++ s ++ ('\n' :: [])
  | none => ("Your answer: (skipped)\n").data

/-- One question's chunk of the wrong-answer report (src/main.ts:804-826):
`Q<id>. <text>`, one line per option, `Answer:` line, the `Your answer:`
part, and the separating blank line.  (The `if (q.options.length > 0)`
guard at src/main.ts:807 is semantically redundant: `forEach` over an empty
array appends nothing.) -/
def renderWrongQuestion (q : Question) : Str :=
  ('Q' :: []) ++ q.id ++ (". ").data ++ q.text ++ ('\n' :: [])
  ++ (q.options.map (fun o => o.letter :: (". ").data ++ o.text ++ ('\n' :: []))).flatten
  ++ ("Answer: ").data ++ List.intercalate (", ").data q.correctAnswers ++ ('\n' :: [])
  ++ yourAnswerLine q
  ++ ('\n' :: [])

/-- `this.result.questions.filter(...)` (src/main.ts:774-791): the selected
questions in order; an exception in the predicate aborts the filter. -/
def collectWrong : List Question → Except Unit (List Question)
  | [] => .ok []
  | q :: qs =>
    match saveFilter q with
    | .error e => .error e
    | .ok b => (collectWrong qs).map (fun l => if b then q :: l else l)

/-- The per-question part of the report body (the `wrongQuestions.forEach`
at src/main.ts:804-826), i.e. everything after the fixed header. -/
def wrongReportBody (qs : List Question) : Except Unit Str :=
  (collectWrong qs).map (fun l => (l.map renderWrongQuestion).flatten)

/-! ## Derived characterizations used in the theorems -/

/-- The text-accumulation loop keeps scanning a line iff it is an image line
(consumed) or neither an option line nor an answer line. -/
def keepScanning (l : Str) : Bool := isImgLine l || (!isOptB l && !isAnsB l)

/-- The image target a line contributes (`imgMatch[1] || imgMatch[3]`). -/
def imgTarget (l : Str) : Option Str := (findImg l).map (fun t => t.2.1)

/-- The last image target contributed by a list of lines: the final value of
the repeatedly overwritten `imageUrl` variable of src/main.ts:142. -/
def lastImgUrl : List Str → Option Str
  | [] => none
  | l :: rest =>
    match lastImgUrl rest with
    | some u => some u
    | none => imgTarget l

/-! ## Spec-side definitions (reference renderings for the report claim) -/

/-- The comma-joined form of a response, as the claim words it. -/
def joinedResp : Option Response → Str
  | some (.letters l) => List.intercalate (", ").data l
  | some (.text s) => s
  | none => []

/-- The report entry format exactly as claim C8 words it: a `Q<id>. <text>`
line, one line per option, an `Answer:` line, and a `Your answer:` line
present for every rendered question, saying `(skipped)` when the response is
absent or empty. -/
def specRenderWrongQuestion (q : Question) : Str :=
  ('Q' :: []) ++ q.id ++ (". ").data ++ q.text ++ ('\n' :: [])
  ++ (q.options.map (fun o => o.letter :: (". ").data ++ o.text ++ ('\n' :: []))).flatten
  ++ ("Answer: ").data ++ List.intercalate (", ").data q.correctAnswers ++ ('\n' :: [])
  ++ ("Your answer: ").data
  ++ (if respEmpty q.userAnswer then ("(skipped)").data else joinedResp q.userAnswer)
  ++ ('\n' :: [])
  ++ ('\n' :: [])

/-- The amended `Your answer:` line: present with the joined response when
that join is non-empty; `(skipped)` when the response is absent or the empty
string; omitted entirely when the response is a sequence joining to the
empty string. -/
def specYourAnswerAmended (q : Question) : Str :=
  match q.userAnswer with
  | none => ("Your answer: (skipped)\n").data
  | some (.text s) =>
    if s.isEmpty then ("Your answer: (skipped)\n").data
    else ("Your answer: ").data ++ s ++ ('\n' :: [])
  | some (.letters l) =>
    if (List.intercalate (", ").data l).isEmpty then []
    else ("Your answer: ").data ++ List.intercalate (", ").data l ++ ('\n' :: [])

/-- The amended report entry format, assembled as a list of lines (each
terminated by a newline) followed by the separating blank line. -/
def specRenderWrongQuestionAmended (q : Question) : Str :=
  (([('Q' :: []) ++ q.id ++ (". ").data ++ q.text]
    ++ q.options.map (fun o => o.letter :: (". ").data ++ o.text)
    ++ [("Answer: ").data ++ List.intercalate (", ").data q.correctAnswers]).map
      (fun l => l ++ ('\n' :: []))).flatten
  ++ specYourAnswerAmended q
  ++ ('\n' :: [])

/-! ## Concrete inputs used by witnesses and counterexamples -/

/-- A parsed-shape freetext question graded against `H2O`. -/
def qH2O (ua : Option Response) : Question :=
  { id := ("1").data, text := ("Chemical formula of water?").data, imageUrl := none
    options := [], correctAnswers := [("H2O").data], type := .freetext, userAnswer := ua }

/-- A parsed-shape multiple-choice question with `correctAnswers = [A, C]`. -/
def qAC (ua : Option Response) : Question :=
  { id := ("2").data, text := ("Pick two").data, imageUrl := none
    options := [⟨'A', ("x").data⟩, ⟨'B', ("y").data⟩, ⟨'C', ("z").data⟩]
    correctAnswers := [("A").data, ("C").data], type := .multiple, userAnswer := ua }

/-- A parsed freetext question whose block had no answer line. -/
def qNoAnswerBlock : Str := ("Q1. Capital of France?").data

/-- The two-image block of the C6 counterexample. -/
def twoImgBlock : Str := ("Q1. t\n![[a.png]]\n![[b.png]]\nA. x\nAnswer: A").data

/-- The duplicate-letter block of the C7 counterexample. -/
def dupLetterBlock : Str := ("Q4. Dup\nA. x\nA. y\nAnswer: A").data

/-- Options present but a free-text-shaped answer (C2 edge case). -/
def phraseAnswerBlock : Str := ("Q2. Which?\nA. x\nB. y\nAnswer: some phrase").data

/-- The question `parseQuestionBlock` produces for `phraseAnswerBlock`. -/
def phraseQ : Question :=
  { id := ("2").data, text := ("Which?").data, imageUrl := none
    options := [⟨'A', ("x").data⟩, ⟨'B', ("y").data⟩]
    correctAnswers := [("some phrase").data], type := .single, userAnswer := none }

/-- The lines of `twoImgBlock` after the first. -/
def twoImgRest : List Str :=
  [("![[a.png]]").data, ("![[b.png]]").data, ("A. x").data, ("Answer: A").data]

/-- The question `parseQuestionBlock` produces for `twoImgBlock`. -/
def twoImgQ : Question :=
  { id := ("1").data, text := ("t").data, imageUrl := some (("b.png").data)
    options := [⟨'A', ("x").data⟩], correctAnswers := [("A").data]
    type := .single, userAnswer := none }

/-- The question `parseQuestionBlock` produces for `dupLetterBlock`. -/
def dupQ : Question :=
  { id := ("4").data, text := ("Dup").data, imageUrl := none
    options := [⟨'A', ("x").data⟩, ⟨'A', ("y").data⟩]
    correctAnswers := [("A").data], type := .single, userAnswer := none }

/-- A parsed-shape freetext question whose block had no answer line, with a
non-empty response supplied. -/
def qNoAns : Question :=
  { id := ("1").data, text := ("Capital of France?").data, imageUrl := none
    options := [], correctAnswers := [], type := .freetext
    userAnswer := some (.text (("x").data)) }

instance instDecEqExceptUnitG : DecidableEq (Except Unit GStatus)
  | .error _, .error _ => isTrue rfl
  | .error _, .ok _ => isFalse (fun h => Except.noConfusion h)
  | .ok _, .error _ => isFalse (fun h => Except.noConfusion h)
  | .ok a, .ok b =>
    match decEq a b with
    | isTrue h => isTrue (congrArg Except.ok h)
    | isFalse h => isFalse (fun hh => h (Except.ok.inj hh))

/-! ## Helper lemmas: grading -/

theorem finalizeStatus_eq_getQuestionStatus : ∀ q : Question, finalizeStatus q = getQuestionStatus q :=
  fun _ => rfl

theorem saveFilter_vs_status (q : Question) :
    saveFilter q = (getQuestionStatus q).map (fun st => decide (st ≠ GStatus.correct)) := by
  unfold saveFilter getQuestionStatus
  by_cases h : respEmpty q.userAnswer
  · simp [h, Except.map]
  · simp only [h, Bool.false_eq_true, if_false]
    cases htype : q.type
    · cases hua : q.userAnswer with
      | none => simp [Except.map]
      | some r =>
        cases r with
        | letters l => simp [Except.map]
        | text s => simp [Except.map]
      
    · cases hua : q.userAnswer with
      | none => simp [Except.map]
      | some r =>
        cases r with
        | letters l => simp [Except.map]
        | text s => simp [Except.map]
    · cases hua : q.userAnswer with
      | none => simp [Except.map]
      | some r =>
        cases r with
        | letters l => simp [Except.map]
        | text s =>
          cases hca : q.correctAnswers with
          | nil => simp [Except.map]
          | cons c cs =>
            by_cases he : lowerTrim s = lowerTrim c
            · simp [he, Except.map]
            · simp [he, Except.map]

theorem finalizeCountsGo_spec (qs : List Question) : ∀ c w s : Nat,
    finalizeCountsGo qs (c, w, s) =
      (gradeAll qs).map (fun sts =>
        (c + sts.count .correct, w + sts.count .wrong, s + sts.count .skipped)) := by
  induction qs with
  | nil => intro c w s; simp [finalizeCountsGo, gradeAll, Except.map]
  | cons q rest ih =>
    intro c w s
    cases hst : getQuestionStatus q with
    | error e =>
      simp [finalizeCountsGo, finalizeStatus_eq_getQuestionStatus, hst, gradeAll, Except.map]
    | ok st =>
      cases st <;>
        · simp only [finalizeCountsGo, finalizeStatus_eq_getQuestionStatus, hst, gradeAll]
          rw [ih]
          cases hrest : gradeAll rest with
          | error e => simp [Except.map]
          | ok sts =>
            simp [Except.map, List.count_cons]
            omega

theorem finalizeStatus_skip (q : Question) (hemp : respEmpty q.userAnswer = true) :
    finalizeStatus q = .ok .skipped := by
  simp [finalizeStatus, hemp]

theorem finalizeStatus_choice (q : Question) (r : Response)
    (hua : q.userAnswer = some r) (hemp : respEmpty q.userAnswer = false)
    (ht : q.type ≠ .freetext) :
    finalizeStatus q =
      .ok (if sortJoin (respAsList r) = sortJoin q.correctAnswers
           then GStatus.correct else GStatus.wrong) := by
  have hre : respEmpty (some r) = false := hua ▸ hemp
  cases htype : q.type
  · simp only [finalizeStatus, hua, hre, Bool.false_eq_true, if_false, htype]
  · simp only [finalizeStatus, hua, hre, Bool.false_eq_true, if_false, htype]
  · exact absurd htype ht

theorem finalizeStatus_free (q : Question) (s : Str)
    (hua : q.userAnswer = some (.text s)) (hemp : respEmpty q.userAnswer = false)
    (ht : q.type = .freetext) (c : Str) (cs : List Str)
    (hca : q.correctAnswers = c :: cs) :
    finalizeStatus q =
      .ok (if lowerTrim s = lowerTrim c then GStatus.correct else GStatus.wrong) := by
  have hre : respEmpty (some (Response.text s)) = false := hua ▸ hemp
  simp only [finalizeStatus, hua, hre, Bool.false_eq_true, if_false, ht, hca]

theorem finalizeStatus_free_letters (q : Question) (l : List Str)
    (hua : q.userAnswer = some (.letters l)) (hemp : respEmpty q.userAnswer = false)
    (ht : q.type = .freetext) :
    finalizeStatus q = .error () := by
  have hre : respEmpty (some (Response.letters l)) = false := hua ▸ hemp
  simp only [finalizeStatus, hua, hre, Bool.false_eq_true, if_false, ht]

theorem finalizeStatus_free_noans (q : Question) (s : Str)
    (hua : q.userAnswer = some (.text s)) (hemp : respEmpty q.userAnswer = false)
    (ht : q.type = .freetext) (hca : q.correctAnswers = []) :
    finalizeStatus q = .error () := by
  have hre : respEmpty (some (Response.text s)) = false := hua ▸ hemp
  simp only [finalizeStatus, hua, hre, Bool.false_eq_true, if_false, ht, hca]

theorem respEmpty_false_some (q : Question) (hemp : respEmpty q.userAnswer = false) :
    ∃ r, q.userAnswer = some r := by
  cases hua : q.userAnswer with
  | none => rw [hua] at hemp; exact absurd hemp (by simp [respEmpty])
  | some r => exact ⟨r, rfl⟩

theorem saveFilter_bool (q : Question) (b : Bool) (h : saveFilter q = .ok b) :
    decide (getQuestionStatus q = .ok .wrong ∨ getQuestionStatus q = .ok .skipped) = b := by
  rw [saveFilter_vs_status] at h
  cases hst : getQuestionStatus q with
  | error e => rw [hst] at h; exact Except.noConfusion h
  | ok st =>
    rw [hst] at h
    simp only [Except.map] at h
    injection h with h
    subst h
    cases st <;> simp [hst]

/-! ## Helper lemmas: parser -/

theorem optionPhase_spec (ls : List Str) :
    optionPhase ls = ((ls.takeWhile (fun l => !isAnsB l)).filterMap optionLineParse,
                      (ls.dropWhile (fun l => !isAnsB l)).head?) := by
  induction ls with
  | nil => rfl
  | cons l ls ih =>
    by_cases ha : isAnsB l
    · simp [optionPhase, ha]
    · cases ho : optionLineParse l with
      | some o => simp [optionPhase, ha, ho, ih]
      | none => simp [optionPhase, ha, ho, ih]

theorem textPhase_spec (ls : List Str) :
    textPhase ls =
      ((ls.takeWhile keepScanning).filter (fun l => !isImgLine l && !isMetaLine l),
       lastImgUrl ((ls.takeWhile keepScanning).filter isImgLine),
       ls.dropWhile keepScanning) := by
  induction ls with
  | nil => rfl
  | cons l ls ih =>
    by_cases hi : isImgLine l
    · obtain ⟨⟨pre, u, post⟩, hf⟩ : ∃ t, findImg l = some t :=
        Option.isSome_iff_exists.mp hi
      have hks : keepScanning l = true := by simp [keepScanning, hi]
      have himg : imgTarget l = some u := by simp [imgTarget, hf]
      simp only [textPhase, hf, ih, List.takeWhile_cons, hks, if_true,
        List.filter_cons, hi, Bool.not_true, Bool.false_and, if_false,
        List.dropWhile_cons, lastImgUrl, himg]
      cases lastImgUrl ((ls.takeWhile keepScanning).filter isImgLine) <;> simp
    · have hf : findImg l = none := by
        cases hff : findImg l with
        | none => rfl
        | some t => rw [isImgLine, hff] at hi; exact absurd rfl hi
      by_cases ho : isOptB l
      · have hks : keepScanning l = false := by simp [keepScanning, hi, ho]
        simp [textPhase, hf, ho, hks, lastImgUrl]
      · by_cases ha : isAnsB l
        · have hks : keepScanning l = false := by simp [keepScanning, hi, ho, ha]
          simp [textPhase, hf, ho, ha, hks, lastImgUrl]
        · have hks : keepScanning l = true := by simp [keepScanning, hi, ho, ha]
          by_cases hm : isMetaLine l
          · simp [textPhase, hf, ho, ha, hm, hks, ih, hi]
          · simp [textPhase, hf, ho, ha, hm, hks, ih, hi, lastImgUrl, imgTarget]

theorem optionLineParse_upper (l : Str) (c : Char) (t : Str)
    (h : optionLineParse l = some (c, t)) : c.isUpper = true := by
  unfold optionLineParse at h
  split at h
  · split at h
    · rename_i hg
      injection h with h
      cases h
      exact ((Bool.and_eq_true _ _).mp hg).1
    · exact Option.noConfusion h
  · exact Option.noConfusion h

theorem embeddedImg_some (T u : Str) : embeddedImg T (some u) = (some u, T) := by
  unfold embeddedImg
  cases h : findImg T with
  | none => rfl
  | some t => rfl

theorem parseQuestionBlock_fields (b : Str) (q : Question)
    (h : parseQuestionBlock b = some q) :
    ∃ (first : Str) (rest : List Str) (qid rest0 : Str),
      linesOf b = first :: rest ∧ parseQLine first = some (qid, rest0) ∧
      q.options = ((optionPhase (textPhase rest).2.2).1).map
        (fun o => QuestionOption.mk o.1 o.2) ∧
      q.correctAnswers = answerPhase (optionPhase (textPhase rest).2.2).2 ∧
      q.type = determineType q.options q.correctAnswers ∧
      q.imageUrl = (embeddedImg (trim (List.intercalate [' ']
        (rest0 :: (textPhase rest).1))) (textPhase rest).2.1).1 ∧
      q.text = (embeddedImg (trim (List.intercalate [' ']
        (rest0 :: (textPhase rest).1))) (textPhase rest).2.1).2 ∧
      q.id = qid ∧ q.userAnswer = none := by
  unfold parseQuestionBlock at h
  cases hl : linesOf b with
  | nil =>
    simp only [hl] at h
    exact Option.noConfusion h
  | cons first rest =>
    simp only [hl] at h
    cases hq : parseQLine first with
    | none =>
      simp only [hq] at h
      exact Option.noConfusion h
    | some pr =>
      obtain ⟨qid, rest0⟩ := pr
      simp only [hq] at h
      injection h with h
      refine ⟨first, rest, qid, rest0, rfl, hq, ?_⟩
      cases h
      exact ⟨rfl, rfl, rfl, rfl, rfl, rfl, rfl⟩

theorem lastImgUrl_getLast (ls : List Str) (hall : ∀ l ∈ ls, isImgLine l = true) :
    lastImgUrl ls = ls.getLast?.bind imgTarget := by
  induction ls with
  | nil => rfl
  | cons l rest ih =>
    cases hr : rest with
    | nil => simp [lastImgUrl, Option.bind]
    | cons l2 r2 =>
      subst hr
      have hne : l2 :: r2 ≠ ([] : List Str) := by simp
      have hlast : (l2 :: r2).getLast? = some ((l2 :: r2).getLast hne) :=
        List.getLast?_eq_getLast _ hne
      have hmem : (l2 :: r2).getLast hne ∈ l2 :: r2 := List.getLast_mem hne
      have himg : isImgLine ((l2 :: r2).getLast hne) = true :=
        hall _ (List.mem_cons_of_mem l hmem)
      obtain ⟨t, hft⟩ : ∃ t, findImg ((l2 :: r2).getLast hne) = some t :=
        Option.isSome_iff_exists.mp himg
      have hrec : lastImgUrl (l2 :: r2) = some t.2.1 := by
        rw [ih (fun x hx => hall x (List.mem_cons_of_mem l hx)), hlast]
        simp [Option.bind, imgTarget, hft]
      rw [show lastImgUrl (l :: l2 :: r2) =
            (match lastImgUrl (l2 :: r2) with
             | some u => some u
             | none => imgTarget l) from rfl,
          hrec, List.getLast?_cons_cons, hlast]
      simp [Option.bind, imgTarget, hft]

theorem all_digit_dropWhile (l z : Str) (h : ∀ x ∈ l, Char.isDigit x = true) :
    (l ++ z).dropWhile Char.isDigit = z.dropWhile Char.isDigit := by
  induction l with
  | nil => rfl
  | cons a t ih =>
    rw [List.cons_append, List.dropWhile_cons]
    rw [h a (List.mem_cons_self a t)]
    simp only [if_true]
    exact ih (fun x hx => h x (List.mem_cons_of_mem a hx))

theorem markerP_iff (s : Str) :
    markerP s = true ↔
      ∃ (ds t : Str), s = 'Q' :: (ds ++ '.' :: t) ∧ ds ≠ [] ∧ ∀ c ∈ ds, c.isDigit = true := by
  constructor
  · intro h
    unfold markerP at h
    split at h
    · rename_i rest
      rw [Bool.and_eq_true] at h
      obtain ⟨h1, h2⟩ := h
      split at h2
      · rename_i tail heq
        refine ⟨rest.takeWhile Char.isDigit, tail, ?_, ?_, ?_⟩
        · rw [← heq, List.takeWhile_append_dropWhile]
        · cases rest with
          | nil => exact Bool.noConfusion h1
          | cons d rest' =>
            simp only at h1
            rw [List.takeWhile_cons, h1]
            simp
        · intro c hc
          exact List.mem_takeWhile_imp hc
      · exact Bool.noConfusion h2
    · exact Bool.noConfusion h
  · rintro ⟨ds, t, rfl, hne, hdig⟩
    simp only [markerP]
    rw [Bool.and_eq_true]
    constructor
    · cases ds with
      | nil => exact absurd rfl hne
      | cons d ds' => simpa using hdig d (List.mem_cons_self d ds')
    · rw [all_digit_dropWhile ds ('.' :: t) hdig]
      rw [List.dropWhile_cons]
      rw [show ('.' : Char).isDigit = false from rfl]
      simp

theorem markerP_of_prefix (p v : Str) (hp : p <+: v) (h : markerP p = true) :
    markerP v = true := by
  obtain ⟨ext, rfl⟩ := hp
  obtain ⟨ds, t, rfl, hne, hdig⟩ := (markerP_iff p).mp h
  refine (markerP_iff _).mpr ⟨ds, t ++ ext, ?_, hne, hdig⟩
  simp

theorem trim_prefix_dropWhile (s : Str) : trim s <+: s.dropWhile isWs := by
  unfold trim
  have h1 : (List.dropWhile isWs (s.dropWhile isWs).reverse) <:+ (s.dropWhile isWs).reverse :=
    List.dropWhile_suffix isWs
  have h2 := List.reverse_prefix.mpr h1
  rw [List.reverse_reverse] at h2
  exact h2

theorem splitGo_no_marker (cs : Str) :
    ∀ cur : Str, (∀ t, t <:+ cs → markerP t = false) →
      splitGo cs cur = [cur.reverse ++ cs] := by
  induction cs with
  | nil => intro cur h; simp [splitGo]
  | cons c rest ih =>
    intro cur h
    have hm : markerP (c :: rest) = false := h _ (List.suffix_refl _)
    rw [show splitGo (c :: rest) cur =
          (if !cur.isEmpty && markerP (c :: rest) then
             cur.reverse :: splitGo rest [c]
           else splitGo rest (c :: cur)) from rfl]
    rw [hm, Bool.and_false, if_neg (by simp)]
    rw [ih (c :: cur) (fun t ht => h t (ht.trans (List.suffix_cons c rest)))]
    simp

theorem trim_empty_of_marker (s : Str) (h : markerP (trim s) = true) : ¬(trim s).isEmpty = true := by
  intro hemp
  rw [List.isEmpty_iff] at hemp
  rw [hemp] at h
  exact Bool.noConfusion h

theorem filterMap_markerFilter (bs : List Str) :
    (bs.filterMap (fun block =>
      if (trim block).isEmpty then none
      else if !markerP (trim block) then none
      else parseQuestionBlock (trim block)))
    = (bs.filter (fun b => markerP (trim b))).filterMap
        (fun b => parseQuestionBlock (trim b)) := by
  induction bs with
  | nil => rfl
  | cons b bs ih =>
    by_cases hm : markerP (trim b) = true
    · have hne : (trim b).isEmpty = false := by
        cases he : (trim b).isEmpty
        · rfl
        · exact absurd he (trim_empty_of_marker b hm)
      rw [List.filterMap_cons, List.filter_cons]
      simp only [hm, if_true, hne, Bool.false_eq_true, if_false, Bool.not_true]
      rw [List.filterMap_cons]
      cases hp : parseQuestionBlock (trim b) with
      | none => exact ih
      | some q => exact congrArg (List.cons q) ih
    · have hm' : markerP (trim b) = false := by simpa using hm
      rw [List.filterMap_cons, List.filter_cons]
      simp only [hm', Bool.false_eq_true, if_false, Bool.not_false, if_true]
      by_cases he : (trim b).isEmpty = true
      · simp only [he, if_true]
        exact ih
      · simp only [he, Bool.false_eq_true, if_false]
        exact ih

/-! ## Helper lemmas: ordering and shuffle -/

theorem char_toNat_inj {a b : Char} (h : a.toNat = b.toNat) : a = b := by
  apply Char.ext
  exact UInt32.ext h

theorem strLe_total : ∀ a b : Str, strLe a b = true ∨ strLe b a = true := by
  intro a
  induction a with
  | nil => intro b; left; rfl
  | cons x as ih =>
    intro b
    cases b with
    | nil => right; rfl
    | cons y bs =>
      rcases Nat.lt_trichotomy x.toNat y.toNat with h | h | h
      · left; simp [strLe, h]
      · have hxy : ¬x.toNat < y.toNat := by omega
        have hyx : ¬y.toNat < x.toNat := by omega
        rcases ih bs with hh | hh
        · left; simp [strLe, hxy, hyx, hh]
        · right; simp [strLe, hxy, hyx, hh]
      · right; simp [strLe, h]

theorem strLe_trans : ∀ a b c : Str, strLe a b = true → strLe b c = true → strLe a c = true := by
  intro a
  induction a with
  | nil => intro b c _ _; rfl
  | cons x as ih =>
    intro b c hab hbc
    cases b with
    | nil => exact Bool.noConfusion hab
    | cons y bs =>
      cases c with
      | nil => exact Bool.noConfusion hbc
      | cons z cs =>
        simp only [strLe] at hab hbc ⊢
        by_cases h1 : x.toNat < y.toNat
        · by_cases h2 : y.toNat < z.toNat
          · simp [show x.toNat < z.toNat by omega]
          · rw [if_neg h2] at hbc
            by_cases h3 : z.toNat < y.toNat
            · rw [if_pos h3] at hbc; exact Bool.noConfusion hbc
            · simp [show x.toNat < z.toNat by omega]
        · rw [if_neg h1] at hab
          by_cases h1' : y.toNat < x.toNat
          · rw [if_pos h1'] at hab; exact Bool.noConfusion hab
          · rw [if_neg h1'] at hab
            have hxy : x.toNat = y.toNat := by omega
            by_cases h2 : y.toNat < z.toNat
            · simp [show x.toNat < z.toNat by omega]
            · rw [if_neg h2] at hbc
              by_cases h3 : z.toNat < y.toNat
              · rw [if_pos h3] at hbc; exact Bool.noConfusion hbc
              · rw [if_neg h3] at hbc
                have hyz : y.toNat = z.toNat := by omega
                rw [if_neg (by omega : ¬x.toNat < z.toNat),
                    if_neg (by omega : ¬z.toNat < x.toNat)]
                exact ih bs cs hab hbc

theorem strLe_antisymm : ∀ a b : Str, strLe a b = true → strLe b a = true → a = b := by
  intro a
  induction a with
  | nil =>
    intro b _ hba
    cases b with
    | nil => rfl
    | cons y bs => exact Bool.noConfusion hba
  | cons x as ih =>
    intro b hab hba
    cases b with
    | nil => exact Bool.noConfusion hab
    | cons y bs =>
      simp only [strLe] at hab hba
      by_cases h1 : x.toNat < y.toNat
      · rw [if_neg (by omega : ¬y.toNat < x.toNat), if_pos h1] at hba
        exact Bool.noConfusion hba
      · by_cases h2 : y.toNat < x.toNat
        · rw [if_neg h1, if_pos h2] at hab
          exact Bool.noConfusion hab
        · rw [if_neg h1, if_neg h2] at hab
          rw [if_neg h2, if_neg h1] at hba
          have hx : x = y := char_toNat_inj (by omega)
          rw [hx, ih bs hab hba]

theorem perm_cons_set {α : Type} (t : List α) : ∀ (m : Nat) (x b : α),
    t[m]? = some b → (b :: t.set m x).Perm (x :: t) := by
  induction t with
  | nil => intro m x b h; simp at h
  | cons y t' ih =>
    intro m x b h
    cases m with
    | zero =>
      simp only [List.getElem?_cons_zero, Option.some.injEq] at h
      subst h
      exact List.Perm.swap x y t'
    | succ k =>
      simp only [List.getElem?_cons_succ] at h
      have hih := ih k x b h
      have h1 : (b :: y :: t'.set k x).Perm (y :: b :: t'.set k x) := List.Perm.swap y b _
      have h2 : (y :: b :: t'.set k x).Perm (y :: x :: t') := hih.cons y
      have h3 : (y :: x :: t').Perm (x :: y :: t') := List.Perm.swap x y t'
      exact (h1.trans h2).trans h3

theorem perm_set_set {α : Type} (l : List α) : ∀ (i j : Nat) (a b : α),
    l[i]? = some a → l[j]? = some b → ((l.set i b).set j a).Perm l := by
  induction l with
  | nil => intro i j a b hi _; simp at hi
  | cons x t ih =>
    intro i j a b hi hj
    cases i with
    | zero =>
      simp only [List.getElem?_cons_zero, Option.some.injEq] at hi
      subst hi
      cases j with
      | zero =>
        simp only [List.getElem?_cons_zero, Option.some.injEq] at hj
        subst hj
        exact List.Perm.refl _
      | succ k =>
        simp only [List.getElem?_cons_succ] at hj
        exact perm_cons_set t k x b hj
    | succ m =>
      simp only [List.getElem?_cons_succ] at hi
      cases j with
      | zero =>
        simp only [List.getElem?_cons_zero, Option.some.injEq] at hj
        subst hj
        exact perm_cons_set t m x a hi
      | succ k =>
        simp only [List.getElem?_cons_succ] at hj
        exact (ih m k a b hi hj).cons x

theorem listSwap_perm {α : Type} (l : List α) (i j : Nat) : (listSwap l i j).Perm l := by
  unfold listSwap
  cases hi : l[i]? with
  | none => exact List.Perm.refl l
  | some a =>
    cases hj : l[j]? with
    | none => exact List.Perm.refl l
    | some b => exact perm_set_set l i j a b hi hj

theorem shuffleGo_perm {α : Type} (rand : Nat → Nat) :
    ∀ (n : Nat) (l : List α), (shuffleGo rand n l).Perm l := by
  intro n
  induction n with
  | zero => intro l; exact List.Perm.refl l
  | succ k ih =>
    intro l
    exact (ih _).trans (listSwap_perm l (k + 1) (rand (k + 1) % (k + 2)))

theorem jsSort_perm_eq (l₁ l₂ : List Str) (h : l₁.Perm l₂) : jsSort l₁ = jsSort l₂ := by
  haveI : IsTotal Str StrLeR := ⟨fun a b => strLe_total a b⟩
  haveI : IsTrans Str StrLeR := ⟨fun a b c hab hbc => strLe_trans a b c hab hbc⟩
  haveI : IsAntisymm Str StrLeR := ⟨fun a b hab hba => strLe_antisymm a b hab hba⟩
  unfold jsSort
  have hp : (List.insertionSort StrLeR l₁).Perm (List.insertionSort StrLeR l₂) :=
    (List.perm_insertionSort StrLeR l₁).trans (h.trans (List.perm_insertionSort StrLeR l₂).symm)
  exact List.eq_of_perm_of_sorted hp
    (List.sorted_insertionSort StrLeR l₁) (List.sorted_insertionSort StrLeR l₂)

/-! ## Helper lemmas: wrong-answer report -/

theorem yourAnswerLine_amended (q : Question) :
    yourAnswerLine q = specYourAnswerAmended q := by
  cases hua : q.userAnswer with
  | none => simp [yourAnswerLine, specYourAnswerAmended, hua]
  | some r =>
    cases r with
    | letters l => simp [yourAnswerLine, specYourAnswerAmended, hua]
    | text s => simp [yourAnswerLine, specYourAnswerAmended, hua]

theorem render_amended (q : Question) :
    renderWrongQuestion q = specRenderWrongQuestionAmended q := by
  unfold renderWrongQuestion specRenderWrongQuestionAmended
  rw [yourAnswerLine_amended]
  simp only [List.map_append, List.map_map, List.flatten_append, List.map_cons,
    List.map_nil, List.flatten_cons, List.flatten_nil, List.append_assoc,
    List.append_nil, List.nil_append]
  congr 5

theorem collectWrong_spec (qs : List Question) : ∀ l : List Question,
    collectWrong qs = .ok l →
      l = qs.filter (fun q => decide (getQuestionStatus q = .ok .wrong
        ∨ getQuestionStatus q = .ok .skipped)) := by
  induction qs with
  | nil =>
    intro l h
    injection h with h
    rw [← h]
    rfl
  | cons q qs ih =>
    intro l h
    unfold collectWrong at h
    cases hf : saveFilter q with
    | error e => rw [hf] at h; exact Except.noConfusion h
    | ok b =>
      rw [hf] at h
      cases hrec : collectWrong qs with
      | error e => rw [hrec] at h; exact Except.noConfusion h
      | ok l' =>
        rw [hrec] at h
        simp only [Except.map] at h
        injection h with h
        rw [List.filter_cons, saveFilter_bool q b hf]
        cases b with
        | false =>
          simp only [Bool.false_eq_true, if_false] at h
          subst h
          exact ih l' hrec
        | true =>
          simp only [if_true] at h
          subst h
          rw [ih l' hrec, if_pos rfl]

/-! ## Claim theorems -/

/-- **C1** (confirmed).  Grading matches the spec's reference definition: for
every question whose response is present and non-empty, if the type is
`freetext` the question is graded correct iff the response string and
`correctAnswers[0]`, both lower-cased and trimmed, are equal; if the type is
`single` or `multiple`, the response (a bare string wrapped into a
one-element sequence by `respAsList`) is graded correct iff its sorted,
comma-joined form textually equals the sorted, comma-joined
`correctAnswers`.  No partial credit exists: the witness exercises
`correctAnswers = [A, C]` with responses `[C, A]` (correct) and `[A]`
(wrong). -/
theorem grading_matches_reference :
    (∀ (q : Question) (s c : Str), q.type = .freetext →
        q.userAnswer = some (.text s) → s ≠ [] →
        q.correctAnswers.head? = some c →
        (finalizeStatus q = .ok .correct ↔ lowerTrim s = lowerTrim c))
    ∧ (∀ (q : Question) (r : Response),
        (q.type = .single ∨ q.type = .multiple) →
        q.userAnswer = some r → respEmpty (some r) = false →
        (finalizeStatus q = .ok .correct ↔
          sortJoin (respAsList r) = sortJoin q.correctAnswers)) := by
  constructor
  · intro q s c ht hua hs hca
    have hemp : respEmpty q.userAnswer = false := by
      rw [hua]
      cases s with
      | nil => exact absurd rfl hs
      | cons a as => rfl
    cases hca' : q.correctAnswers with
    | nil => rw [hca'] at hca; exact absurd hca (by simp)
    | cons c' cs =>
      rw [hca'] at hca
      simp only [List.head?_cons, Option.some.injEq] at hca
      subst hca
      rw [finalizeStatus_free q s hua hemp ht c' cs hca']
      by_cases he : lowerTrim s = lowerTrim c'
      · simp [he]
      · simp [he]
  · intro q r ht hua hemp'
    have hemp : respEmpty q.userAnswer = false := by rw [hua]; exact hemp'
    have hft : q.type ≠ .freetext := by
      rcases ht with h | h <;> rw [h] <;> intro hcon <;> exact QType.noConfusion hcon
    rw [finalizeStatus_choice q r hua hemp hft]
    by_cases he : sortJoin (respAsList r) = sortJoin q.correctAnswers
    · simp [he]
    · simp [he]

/-- Witness for C1: the theorem applied at concrete questions — free-text
`" h2o "` against `H2O` is correct; for `correctAnswers = [A, C]` response
`[C, A]` is correct and `[A]` is not. -/
theorem grading_matches_reference_witness :
    finalizeStatus (qH2O (some (.text ((" h2o ").data)))) = .ok .correct
    ∧ finalizeStatus (qAC (some (.letters [("C").data, ("A").data]))) = .ok .correct
    ∧ finalizeStatus (qAC (some (.letters [("A").data]))) ≠ .ok .correct := by
  refine ⟨?_, ?_, ?_⟩
  · exact (grading_matches_reference.1 (qH2O (some (.text ((" h2o ").data)))) ((" h2o ").data) (("H2O").data)
      rfl rfl (by decide) rfl).mpr (by decide)
  · exact (grading_matches_reference.2 (qAC (some (.letters [("C").data, ("A").data])))
      (.letters [("C").data, ("A").data]) (Or.inr rfl) rfl (by decide)).mpr (by decide)
  · intro h
    exact absurd ((grading_matches_reference.2 (qAC (some (.letters [("A").data])))
      (.letters [("A").data]) (Or.inr rfl) rfl (by decide)).mp h) (by decide)

/-- **C2** (confirmed).  For every parsed question the type is determined
exactly by: empty `options` ⇒ `freetext`; else `correctAnswers.length > 1`
with every entry a single uppercase letter ⇒ `multiple`; otherwise
`single`.  In particular a question with non-empty options but a
free-text-shaped answer (`Answer: some phrase`) is classified `single`. -/
theorem type_determination_rule :
    (∀ (b : Str) (q : Question), parseQuestionBlock b = some q →
        q.type = (if q.options.isEmpty then QType.freetext
                  else if q.correctAnswers.length > 1 && q.correctAnswers.all isSingleLetter
                  then QType.multiple else QType.single))
    ∧ (parseQuestionBlock phraseAnswerBlock).map Question.type = some .single
    ∧ (parseQuestionBlock phraseAnswerBlock).map (fun q => q.options.isEmpty) = some false
    ∧ (parseQuestionBlock phraseAnswerBlock).map Question.correctAnswers
        = some [("some phrase").data] := by
  refine ⟨?_, rfl, rfl, rfl⟩
  intro b q h
  obtain ⟨first, rest, qid, rest0, -, -, -, -, htype, -⟩ := parseQuestionBlock_fields b q h
  exact htype

/-- Witness for C2: the rule applied to the concrete block with options and
a free-text-shaped answer line. -/
theorem type_determination_rule_witness :
    phraseQ.type = (if phraseQ.options.isEmpty then QType.freetext
      else if phraseQ.correctAnswers.length > 1 && phraseQ.correctAnswers.all isSingleLetter
      then QType.multiple else QType.single) :=
  type_determination_rule.1 phraseAnswerBlock phraseQ rfl

/-- **C3** (confirmed).  The parser is total by construction (it is a plain
function into `List Question`; every partial JS operation in
src/main.ts:90-237 is guarded, so the embedding needs no error case).  The
empty string yields `[]`; any input in which no suffix starts with the
marker `Q\d+\.` yields `[]`; and parsing equals first discarding every
split block whose trimmed form does not begin with the marker, then parsing
the surviving blocks — discarded blocks contribute nothing. -/
theorem parse_total_skips_nonmarker :
    parseQuestions (("").data) = []
    ∧ (∀ s : Str, (s.tails.all (fun t => !markerP t)) = true → parseQuestions s = [])
    ∧ (∀ s : Str, parseQuestions s =
        ((splitBlocks s).filter (fun b => markerP (trim b))).filterMap
          (fun b => parseQuestionBlock (trim b))) := by
  refine ⟨rfl, ?_, ?_⟩
  · intro s hall
    have hsuf : ∀ t, t <:+ s → markerP t = false := by
      intro t ht
      have hmem : t ∈ s.tails := (List.mem_tails t s).mpr ht
      have := List.all_eq_true.mp hall t hmem
      simpa using this
    have hsplit : splitBlocks s = [s] := by
      have := splitGo_no_marker s [] hsuf
      simpa [splitBlocks] using this
    have hmf : markerP (trim s) = false := by
      cases hc : markerP (trim s)
      · rfl
      · exfalso
        have h1 : markerP (s.dropWhile isWs) = true :=
          markerP_of_prefix _ _ (trim_prefix_dropWhile s) hc
        have h2 : (s.dropWhile isWs) <:+ s := List.dropWhile_suffix isWs
        rw [hsuf _ h2] at h1
        exact Bool.noConfusion h1
    unfold parseQuestions
    rw [hsplit]
    rw [List.filterMap_cons]
    by_cases he : (trim s).isEmpty = true
    · simp [he]
    · simp [he, hmf]
  · intro s
    unfold parseQuestions
    exact filterMap_markerFilter _

/-- Witness for C3: a concrete marker-free input parses to the empty
sequence. -/
theorem parse_total_skips_nonmarker_witness : parseQuestions (("hello world, no markers here").data) = [] := by
  refine parse_total_skips_nonmarker.2.1 _ ?_
  decide

/-- Counterexample for C4 as stated: `qNoAns` is a parsed-shape freetext
question (no answer line, so `correctAnswers = []`) with the non-empty
response `"x"`: it is not classified skipped, yet grading classifies it
neither correct nor wrong — it throws (`Except.error`), so "otherwise it is
classified correct or wrong" fails. -/
theorem skip_dichotomy_cex :
    respEmpty qNoAns.userAnswer = false
    ∧ finalizeStatus qNoAns ≠ .ok .correct
    ∧ finalizeStatus qNoAns ≠ .ok .wrong
    ∧ finalizeStatus qNoAns ≠ .ok .skipped := by
  refine ⟨rfl, ?_, ?_, ?_⟩ <;> intro h <;> exact Except.noConfusion h

/-- **C4** (corrected).  A question is classified skipped iff its response
is absent, an empty sequence, or an empty string — this holds universally.
Otherwise grading yields correct or wrong for every non-`freetext` question,
and for `freetext` questions whose response is a string and whose
`correctAnswers` is non-empty; but a `freetext` question graded with a
sequence response or with empty `correctAnswers` makes grading fail
(a `TypeError` in the source), rather than yielding correct or wrong. -/
theorem skip_dichotomy_amended :
    ∀ q : Question,
      (finalizeStatus q = .ok .skipped ↔ respEmpty q.userAnswer = true)
      ∧ (respEmpty q.userAnswer = false → q.type ≠ .freetext →
          (finalizeStatus q = .ok .correct ∨ finalizeStatus q = .ok .wrong))
      ∧ (respEmpty q.userAnswer = false → q.type = .freetext →
          ∀ s, q.userAnswer = some (.text s) → q.correctAnswers ≠ [] →
            (finalizeStatus q = .ok .correct ∨ finalizeStatus q = .ok .wrong))
      ∧ (respEmpty q.userAnswer = false → q.type = .freetext →
          ((∀ s, q.userAnswer ≠ some (.text s)) ∨ q.correctAnswers = []) →
            finalizeStatus q = .error ()) := by
  intro q
  by_cases hemp : respEmpty q.userAnswer
  · refine ⟨by simp [finalizeStatus_skip q hemp, hemp], ?_, ?_, ?_⟩ <;>
      intro h <;> simp [hemp] at h
  · have hemp' : respEmpty q.userAnswer = false := by simpa using hemp
    obtain ⟨r, hua⟩ := respEmpty_false_some q hemp'
    refine ⟨?_, ?_, ?_, ?_⟩
    · constructor
      · intro h
        exfalso
        by_cases hft : q.type = .freetext
        · cases r with
          | letters l =>
            rw [finalizeStatus_free_letters q l hua hemp' hft] at h
            exact Except.noConfusion h
          | text s =>
            cases hca : q.correctAnswers with
            | nil =>
              rw [finalizeStatus_free_noans q s hua hemp' hft hca] at h
              exact Except.noConfusion h
            | cons c cs =>
              rw [finalizeStatus_free q s hua hemp' hft c cs hca] at h
              by_cases he : lowerTrim s = lowerTrim c <;> simp [he] at h
        · rw [finalizeStatus_choice q r hua hemp' hft] at h
          by_cases he : sortJoin (respAsList r) = sortJoin q.correctAnswers <;>
            simp [he] at h
      · intro h; rw [h] at hemp'; exact Bool.noConfusion hemp'
    · intro _ hft
      rw [finalizeStatus_choice q r hua hemp' hft]
      by_cases he : sortJoin (respAsList r) = sortJoin q.correctAnswers
      · left; simp [he]
      · right; simp [he]
    · intro _ hft s hua' hca
      cases hca' : q.correctAnswers with
      | nil => exact absurd hca' hca
      | cons c cs =>
        rw [finalizeStatus_free q s hua' hemp' hft c cs hca']
        by_cases he : lowerTrim s = lowerTrim c
        · left; simp [he]
        · right; simp [he]
    · intro _ hft hbad
      cases r with
      | letters l => exact finalizeStatus_free_letters q l hua hemp' hft
      | text s =>
        rcases hbad with hb | hb
        · exact absurd hua (hb s)
        · exact finalizeStatus_free_noans q s hua hemp' hft hb

/-- Witness for C4: the amended dichotomy applied at a concrete answered
multiple-choice question. -/
theorem skip_dichotomy_amended_witness :
    finalizeStatus (qAC (some (.letters [("A").data]))) = .ok .correct
    ∨ finalizeStatus (qAC (some (.letters [("A").data]))) = .ok .wrong :=
  (skip_dichotomy_amended (qAC (some (.letters [("A").data])))).2.1 rfl
    (fun h => QType.noConfusion h)

/-- **C5** (code_bug).  The block `Q1. Capital of France?` has no answer
line; the parser returns a `freetext` question with `correctAnswers = []`.
Grading it with the non-empty response `Paris` does not yield wrong or
skipped as the spec requires: `q.correctAnswers[0]` is `undefined` and
`.toLowerCase()` on it throws a `TypeError` (src/main.ts:635), modelled as
`Except.error ()` — grading does have a failure mode on a question the
parser returns. -/
theorem no_answer_freetext_grading_crash :
    (parseQuestions qNoAnswerBlock).map Question.correctAnswers = [[]]
    ∧ (parseQuestions qNoAnswerBlock).map Question.type = [.freetext]
    ∧ (parseQuestions qNoAnswerBlock).map
        (fun q => finalizeStatus { q with userAnswer := some (.text (("Paris").data)) })
        = [.error ()] :=
  ⟨rfl, rfl, rfl⟩

/-- Counterexample for C6 as stated: `twoImgBlock` contains two image
reference lines, and the parsed `imageUrl` is the target of the second one
(`b.png`), not the first (`a.png`): src/main.ts:142 overwrites `imageUrl`
on every image line, so the last one wins. -/
theorem image_first_wins_cex :
    ((linesOf twoImgBlock).filter isImgLine).length = 2
    ∧ (parseQuestionBlock twoImgBlock).map Question.imageUrl = some (some (("b.png").data))
    ∧ (parseQuestionBlock twoImgBlock).map Question.imageUrl ≠ some (some (("a.png").data)) := by
  refine ⟨rfl, rfl, ?_⟩
  decide

/-- **C6** (corrected).  For every block whose text-accumulation region
(the lines after the first that keep the scan going) contains image
reference lines, the parsed `imageUrl` is the target of the LAST such line
(not the first), and the question text is the join of exactly the
region lines that are neither image references nor meta lines — every line
captured as an image reference is excluded from the text. -/
theorem image_last_wins_amended :
    ∀ (b : Str) (q : Question) (first : Str) (rest : List Str) (qid rest0 : Str),
      linesOf b = first :: rest → parseQLine first = some (qid, rest0) →
      parseQuestionBlock b = some q →
      ∀ lastL, ((rest.takeWhile keepScanning).filter isImgLine).getLast? = some lastL →
        q.imageUrl = imgTarget lastL
        ∧ q.text = trim (List.intercalate [' ']
            (rest0 :: (rest.takeWhile keepScanning).filter
              (fun l => !isImgLine l && !isMetaLine l))) := by
  intro b q first rest qid rest0 hl hq h lastL hlast
  obtain ⟨first', rest', qid', rest0', hl', hq', -, -, -, himgu, htext, -, -⟩ :=
    parseQuestionBlock_fields b q h
  rw [hl] at hl'
  injection hl' with e1 e2
  subst e1; subst e2
  rw [hq] at hq'
  injection hq' with e3
  injection e3 with e4 e5
  subst e4; subst e5
  have hall : ∀ l ∈ (rest.takeWhile keepScanning).filter isImgLine, isImgLine l = true :=
    fun l hm => List.of_mem_filter hm
  obtain ⟨t, hft⟩ : ∃ t, findImg lastL = some t := by
    have : isImgLine lastL = true := by
      have hmem : lastL ∈ (rest.takeWhile keepScanning).filter isImgLine := by
        have hne : (rest.takeWhile keepScanning).filter isImgLine ≠ [] := by
          intro hcon; rw [hcon] at hlast; exact Option.noConfusion hlast
        have := List.getLast?_eq_getLast _ hne
        rw [this] at hlast
        injection hlast with hlast
        rw [← hlast]
        exact List.getLast_mem hne
      exact hall _ hmem
    exact Option.isSome_iff_exists.mp this
  have hliu : (textPhase rest).2.1 = some t.2.1 := by
    rw [textPhase_spec]
    simp only
    rw [lastImgUrl_getLast _ hall, hlast]
    simp [Option.bind, imgTarget, hft]
  constructor
  · rw [himgu, hliu, embeddedImg_some]
    simp [imgTarget, hft]
  · rw [htext, hliu, embeddedImg_some]
    rw [textPhase_spec]

/-- Witness for C6: the amended statement applied at the concrete two-image
block, whose last image line is `![[b.png]]`. -/
theorem image_last_wins_amended_witness :
    twoImgQ.imageUrl = imgTarget (("![[b.png]]").data)
    ∧ twoImgQ.text = trim (List.intercalate [' ']
        ((("t").data) :: (twoImgRest.takeWhile keepScanning).filter
          (fun l => !isImgLine l && !isMetaLine l))) :=
  image_last_wins_amended twoImgBlock twoImgQ (("Q1. t").data) twoImgRest
    (("1").data) (("t").data) rfl rfl rfl (("![[b.png]]").data) rfl

/-- Counterexample for C7 as stated: the parser retains duplicate option
letters — block `dupLetterBlock` has two `A.` option lines and both are
kept, so the letters of a parsed question are not pairwise distinct. -/
theorem option_letters_distinct_cex :
    (parseQuestionBlock dupLetterBlock).map (fun q => q.options.map QuestionOption.letter)
      = some ['A', 'A']
    ∧ (parseQuestionBlock dupLetterBlock).map
        (fun q => decide ((q.options.map QuestionOption.letter).Pairwise (fun a b => a ≠ b)))
      = some false :=
  ⟨rfl, rfl⟩

/-- **C7** (corrected).  Options appear in the order their lines were
encountered — the parsed (letter, text) pairs form a sublist of the option
parses of the block's lines — and every option letter is a single uppercase
letter; but the letters need not be pairwise distinct: duplicated option
lines are all retained (no uniqueness check exists in src/main.ts:179-198).
-/
theorem options_order_amended :
    ∀ (b : Str) (q : Question), parseQuestionBlock b = some q →
      ((q.options.map (fun o => (o.letter, o.text))).Sublist
        ((linesOf b).filterMap optionLineParse))
      ∧ (∀ o ∈ q.options, o.letter.isUpper = true) := by
  intro b q h
  obtain ⟨first, rest, qid, rest0, hl, hq, hopts, -, -, -, -, -, -⟩ :=
    parseQuestionBlock_fields b q h
  rw [hopts]
  have hmapmap : (((optionPhase (textPhase rest).2.2).1).map
      (fun o => QuestionOption.mk o.1 o.2)).map (fun o => (o.letter, o.text))
      = ((optionPhase (textPhase rest).2.2).1) := by
    rw [List.map_map]
    refine List.map_congr_left ?_ |>.trans (List.map_id _) 
    intro p _
    rfl
  constructor
  · rw [hmapmap, optionPhase_spec]
    simp only
    have s1 : (((textPhase rest).2.2.takeWhile (fun l => !isAnsB l)).filterMap
        optionLineParse).Sublist (((textPhase rest).2.2).filterMap optionLineParse) :=
      (List.takeWhile_sublist _).filterMap _
    have s2 : (((textPhase rest).2.2).filterMap optionLineParse).Sublist
        (rest.filterMap optionLineParse) := by
      rw [textPhase_spec]
      exact (List.dropWhile_sublist _).filterMap _
    have s3 : (rest.filterMap optionLineParse).Sublist
        ((linesOf b).filterMap optionLineParse) := by
      rw [hl]
      exact (List.sublist_cons_self first rest).filterMap _
    exact (s1.trans s2).trans s3
  · intro o ho
    rw [List.mem_map] at ho
    obtain ⟨p, hp, hpo⟩ := ho
    rw [optionPhase_spec] at hp
    simp only at hp
    rw [List.mem_filterMap] at hp
    obtain ⟨l, hlm, hpl⟩ := hp
    have hup : p.1.isUpper = true := by
      refine optionLineParse_upper l p.1 p.2 ?_
      rw [hpl]
    rw [← hpo]
    exact hup

/-- Witness for C7: the amended order/uppercase statement applied at the
duplicate-letter block. -/
theorem options_order_amended_witness :
    ((dupQ.options.map (fun o => (o.letter, o.text))).Sublist
      ((linesOf dupLetterBlock).filterMap optionLineParse))
    ∧ (∀ o ∈ dupQ.options, o.letter.isUpper = true) :=
  options_order_amended dupLetterBlock dupQ rfl

/-- Counterexample for C8 as stated: a question skipped via an empty
sequence response is selected for the report, but its rendering omits the
`Your answer:` line entirely (src/main.ts:816-820: the empty join is falsy),
instead of saying `(skipped)` as the claim requires for every rendered
question. -/
theorem report_your_answer_cex :
    saveFilter (qAC (some (.letters []))) = .ok true
    ∧ renderWrongQuestion (qAC (some (.letters [])))
        ≠ specRenderWrongQuestion (qAC (some (.letters []))) := by
  refine ⟨rfl, ?_⟩
  decide

/-- **C8** (corrected).  Every report entry has the claimed shape — the
`Q<id>. <text>` line, one line per option, the `Answer:` line, then the
`Your answer:` part and a separating blank line — except that the
`Your answer:` line says `(skipped)` only when the response is absent or the
empty string, and is omitted entirely when the response is a sequence whose
join is empty.  The selection is exactly the wrong-or-skipped questions, in
order, and the report body is the concatenation of their renderings. -/
theorem report_format_amended :
    (∀ q : Question, renderWrongQuestion q = specRenderWrongQuestionAmended q)
    ∧ (∀ (qs l : List Question), collectWrong qs = .ok l →
        l = qs.filter (fun q => decide (getQuestionStatus q = .ok .wrong
            ∨ getQuestionStatus q = .ok .skipped))
        ∧ wrongReportBody qs = .ok ((l.map renderWrongQuestion).flatten)) := by
  refine ⟨render_amended, ?_⟩
  intro qs l h
  refine ⟨collectWrong_spec qs l h, ?_⟩
  unfold wrongReportBody
  rw [h]
  rfl

/-- Witness for C8: the selection-and-body statement applied at a concrete
one-question result list. -/
theorem report_format_amended_witness :
    [qAC (some (.letters [("A").data]))] = [qAC (some (.letters [("A").data]))].filter
        (fun q => decide (getQuestionStatus q = .ok .wrong
          ∨ getQuestionStatus q = .ok .skipped))
    ∧ wrongReportBody [qAC (some (.letters [("A").data]))]
        = .ok (([qAC (some (.letters [("A").data]))].map renderWrongQuestion).flatten) :=
  report_format_amended.2 [qAC (some (.letters [("A").data]))]
    [qAC (some (.letters [("A").data]))] rfl

/-- **C9** (confirmed).  Shuffling is multiset-preserving: for every random
oracle and every input list, the output of `shuffleArray` is a permutation
of the input, and the sorted output equals the sorted input
(`sort(shuffle(l)) = sort(l)`).  Non-destructiveness — the input array is
copied (`[...array]`) and never written — is inherent in the pure
embedding: `shuffleArray` is a function of its argument. -/
theorem shuffle_multiset_invariant :
    (∀ (α : Type) (rand : Nat → Nat) (l : List α), (shuffleArray rand l).Perm l)
    ∧ (∀ (rand : Nat → Nat) (l : List Str), jsSort (shuffleArray rand l) = jsSort l) := by
  constructor
  · intro α rand l
    exact shuffleGo_perm rand (l.length - 1) l
  · intro rand l
    exact jsSort_perm_eq _ _ (shuffleGo_perm rand (l.length - 1) l)

/-- **C10** (confirmed).  The three grading implementations agree: the
per-question branch of `finalizeSubmission` equals the review modal's
`getQuestionStatus` as a function; the submission-time scoring fold counts
exactly the questions whose status is correct (resp. wrong, skipped); and
the wrong-answer report's filter accepts a question iff its status is wrong
or skipped. -/
theorem grading_implementations_agree :
    (∀ q : Question, finalizeStatus q = getQuestionStatus q)
    ∧ (∀ qs : List Question,
        finalizeCounts qs = (gradeAll qs).map (fun sts =>
          (sts.count .correct, sts.count .wrong, sts.count .skipped)))
    ∧ (∀ (q : Question) (b : Bool), saveFilter q = .ok b →
        (b = true ↔ (getQuestionStatus q = .ok .wrong ∨ getQuestionStatus q = .ok .skipped))) := by
  refine ⟨finalizeStatus_eq_getQuestionStatus, ?_, ?_⟩
  · intro qs
    have h := finalizeCountsGo_spec qs 0 0 0
    simpa [finalizeCounts] using h
  · intro q b hb
    rw [saveFilter_vs_status] at hb
    cases hst : getQuestionStatus q with
    | error e => rw [hst] at hb; exact Except.noConfusion hb
    | ok st =>
      rw [hst] at hb
      simp only [Except.map] at hb
      injection hb with hb
      subst hb
      cases st <;> simp

/-- Witness for C10: the filter/status agreement applied at a concrete
wrongly-answered question. -/
theorem grading_implementations_agree_witness :
    getQuestionStatus (qAC (some (.letters [("A").data]))) = .ok .wrong
    ∨ getQuestionStatus (qAC (some (.letters [("A").data]))) = .ok .skipped :=
  (grading_implementations_agree.2.2 (qAC (some (.letters [("A").data]))) true rfl).mp rfl

end ExamCreator
